import Mathlib

/- Shallow embedding of the directory sync and backup engine in src/main.go of
   the IPC-Toyz repository: the content differ (getFilesToUpdate, fileHash),
   the backup archiver (createBackup), the apply loop (performFilesUpdate),
   the restore loop (doRestore), the caller status logic of doCheck, and the
   hidden-file scanner together with its stop channel (scanFiles).  Machine
   details the claims do not touch (the zip byte format, clock readings, the
   GUI widgets) are abstracted as parameters; everything else follows the Go
   source line by line. -/

/-- Byte content of a file as returned by os.ReadFile. -/
abbrev FileData := List Nat

/-- A regular file visited by the WalkDir callback of getFilesToUpdate
(main.go 1722-1755): its source-relative path, the size reported by d.Info,
and the os.ReadFile outcome on the source side (none models a read error). -/
structure SrcFile where
  relPath : String
  size : Nat
  data : Option FileData
deriving DecidableEq

/-- Result of os.Stat plus os.ReadFile on the target-side file
targetRoot/relPath: err models a failing os.Stat (entry absent or
unreachable), ok carries the stat size and the ReadFile outcome
(none models a content read error). -/
inductive TgtStat where
  | err : TgtStat
  | ok (size : Nat) (data : Option FileData) : TgtStat
deriving DecidableEq

/-- One invocation of the WalkDir callback (main.go 1722-1726): a visit
carrying a non-nil walk error, a directory entry, or a regular file.  An
unreachable source root produces a single errVisit for the root. -/
inductive WalkEvent where
  | errVisit (path : String) : WalkEvent
  | dirVisit (path : String) : WalkEvent
  | fileVisit (f : SrcFile) : WalkEvent
deriving DecidableEq

/-- fileHash (main.go 1710-1715): the hex digest of the file content, or the
empty string when os.ReadFile fails.  The digest function itself (MD5 in the
source) is abstracted as the parameter hash. -/
def fileHash (hash : FileData → String) : Option FileData → String
  | none => ""
  | some d => hash d

/-- The per-file decision of getFilesToUpdate (main.go 1731-1745): a target
stat error forces an update, else differing sizes force an update, else the
two hashes are compared and an update is recorded only when both are
nonempty and differ. -/
def needUpdate (hash : FileData → String) (f : SrcFile) (t : TgtStat) : Bool :=
  match t with
  | TgtStat.err => true
  | TgtStat.ok tsize tdata =>
    if f.size ≠ tsize then true
    else
      decide (fileHash hash f.data ≠ "") && decide (fileHash hash tdata ≠ "")
        && decide (fileHash hash f.data ≠ fileHash hash tdata)

/-- Outcome of one getFilesToUpdate call: the collected relative paths, the
log lines emitted by the walk callback (the source callback contains no
addLog call, so no branch of the fold appends one), and the error WalkDir
returns to the caller. -/
structure DiffResult where
  toUpdate : List String
  logs : List String
  err : Option String
deriving DecidableEq

/-- The walk callback of getFilesToUpdate (main.go 1722-1750): every branch
ends in return nil, so the callback only ever extends the collected list and
never produces an error. -/
def diffCallback (hash : FileData → String) (tgt : String → TgtStat)
    (acc : List String) : WalkEvent → List String × Option String
  | WalkEvent.errVisit _ => (acc, none)
  | WalkEvent.dirVisit _ => (acc, none)
  | WalkEvent.fileVisit f =>
    if needUpdate hash f (tgt f.relPath) then (acc ++ [f.relPath], none)
    else (acc, none)

/-- filepath.WalkDir: callbacks run in discovery order; a non-nil callback
return would abort the walk and become the error WalkDir returns. -/
def diffWalk (hash : FileData → String) (tgt : String → TgtStat) :
    List WalkEvent → List String → DiffResult
  | [], acc => ⟨acc, [], none⟩
  | ev :: rest, acc =>
    match diffCallback hash tgt acc ev with
    | (acc2, none) => diffWalk hash tgt rest acc2
    | (acc2, some e) => ⟨acc2, [], some e⟩

/-- getFilesToUpdate (main.go 1718-1756): fold the callback over the visit
sequence of the source walk, starting from an empty collection. -/
def getFilesToUpdate (hash : FileData → String) (tgt : String → TgtStat)
    (events : List WalkEvent) : DiffResult :=
  diffWalk hash tgt events []

/-- Visit sequence produced by filepath.WalkDir for a source root: when the
initial os.Lstat of the root fails (root unreachable) the callback is
invoked exactly once with a non-nil error; otherwise the tree's events. -/
def walkDirEvents (root : String) : Option (List WalkEvent) → List WalkEvent
  | none => [WalkEvent.errVisit root]
  | some evs => evs

/-- Status shown by doCheck (main.go 1936-1968): connError for the non-nil
error branch, upToDate for an empty change set, else the needs-update count. -/
inductive CheckStatus where
  | connError : CheckStatus
  | upToDate : CheckStatus
  | needsUpdate (n : Nat) : CheckStatus
deriving DecidableEq

/-- The branch structure of doCheck after getFilesToUpdate returns
(main.go 1947-1965). -/
def doCheckStatus (r : DiffResult) : CheckStatus :=
  match r.err with
  | some _ => CheckStatus.connError
  | none =>
    if r.toUpdate.length = 0 then CheckStatus.upToDate
    else CheckStatus.needsUpdate r.toUpdate.length

/-- Recognizer for the connection-error status of doCheck. -/
def isConnError : CheckStatus → Bool
  | CheckStatus.connError => true
  | _ => false

/-- The spec-side per-file condition, written from the words of the spec and
of claim C1: emit exactly when the target is absent or unreadable at lookup,
or the sizes differ, or the sizes are equal and the content hashes differ.
It is compared against needUpdate, the condition translated from the code. -/
def specNeedsUpdate (hash : FileData → String) (f : SrcFile) (t : TgtStat) : Bool :=
  match t with
  | TgtStat.err => true
  | TgtStat.ok tsize tdata =>
    decide (f.size ≠ tsize)
      || (decide (f.size = tsize)
          && decide (fileHash hash f.data ≠ fileHash hash tdata))

/-- The entry the differ emits for one walk event, per the code's decision. -/
def codeEmit (hash : FileData → String) (tgt : String → TgtStat) :
    WalkEvent → Option String
  | WalkEvent.fileVisit f =>
    if needUpdate hash f (tgt f.relPath) then some f.relPath else none
  | _ => none

/-- The entry the spec's decision would emit for one walk event. -/
def specEmit (hash : FileData → String) (tgt : String → TgtStat) :
    WalkEvent → Option String
  | WalkEvent.fileVisit f =>
    if specNeedsUpdate hash f (tgt f.relPath) then some f.relPath else none
  | _ => none

/-- Readability side condition for claim C1 and C9: the source content of a
file event was read successfully, and so was the target content whenever the
target stat succeeded. -/
def eventReadable (tgt : String → TgtStat) : WalkEvent → Bool
  | WalkEvent.fileVisit f =>
    f.data.isSome
      && (match tgt f.relPath with
          | TgtStat.err => true
          | TgtStat.ok _ td => td.isSome)
  | _ => true

/- Backup archiver (createBackup, main.go 1656-1706). -/

/-- Boolean prefix test on character lists, the semantics of Go's
strings.HasPrefix used at main.go 1644 and 1692. -/
def charsPrefix : List Char → List Char → Bool
  | [], _ => true
  | _ :: _, [] => false
  | a :: as, b :: bs => a == b && charsPrefix as bs

/-- strings.HasPrefix on strings. -/
def strStarts (p s : String) : Bool := charsPrefix p.data s.data

/-- strings.HasSuffix on strings, via reversal. -/
def strEnds (suf s : String) : Bool := charsPrefix suf.data.reverse s.data.reverse

/-- The naming convention of backup archives (main.go 1661): fixed prefix,
timestamp, fixed zip extension. -/
def backupName (ts : String) : String := ("BK_" ++ ts) ++ (".zip")

/-- The filter createBackup and refreshBackups use to recognize archives in
the backup directory (main.go 1692). -/
def isBackupFile (n : String) : Bool := strStarts ("BK_") n && strEnds (".zip") n

/-- Strict lexicographic character-list comparison, the order Go's
sort.StringSlice uses on the archive names (byte-wise comparison; the names
are ASCII, so characters and bytes coincide). -/
def charsLt : List Char → List Char → Bool
  | [], [] => false
  | [], _ :: _ => true
  | _ :: _, [] => false
  | a :: as, b :: bs => decide (a < b) || (decide (a = b) && charsLt as bs)

/-- Reflexive closure of the lexicographic comparison. -/
def charsLe (x y : List Char) : Bool := charsLt x y || decide (x = y)

/-- Strict sorts-before relation on file names. -/
def strBefore (s t : String) : Bool := charsLt s.data t.data

/-- The relation along which the backup list is sorted: a sorts at or before
b in the descending order exactly when b compares at or below a. -/
def sortsGE (a b : String) : Prop := charsLe b.data a.data = true

/-- Insertion of a name into a descending-sorted list. -/
def insertDesc (x : String) : List String → List String
  | [] => [x]
  | y :: ys => if charsLe y.data x.data then x :: y :: ys else y :: insertDesc x ys

/-- Descending string sort, the effect of
sort.Sort(sort.Reverse(sort.StringSlice(bkFiles))) at main.go 1696. -/
def sortDesc : List String → List String
  | [] => []
  | x :: xs => insertDesc x (sortDesc xs)

/-- Name set of the backup directory after os.Create of the new archive:
creating an already-present name truncates it, leaving the name set
unchanged, otherwise the new name is added. -/
def dirAfterCreate (dir : List String) (ts : String) : List String :=
  if backupName ts ∈ dir then dir else dir ++ [backupName ts]

/-- createBackup (main.go 1656-1706), restricted to its effect on the name
set of the backup directory: create the timestamped archive, list the names
matching the convention, sort them descending, and delete every one beyond
the first three, in list order.  Returns the resulting directory contents
together with the deletion sequence in the order the loop removes them. -/
def createBackup (dir : List String) (ts : String) : List String × List String :=
  let d := dirAfterCreate dir ts
  let toDelete := (sortDesc (d.filter isBackupFile)).drop 3
  (d.filter (fun n => decide (n ∉ toDelete)), toDelete)

/- Apply engine (performFilesUpdate, main.go 1812-1856) and restore engine
   (doRestore, main.go 1886-1934). -/

/-- A target tree: an association list from relative path to content, the
first binding of a path being the authoritative one. -/
abbrev FsTree := List (String × FileData)

/-- Content of targetRoot/p, none when no such file exists: the first
binding of the path in the association list. -/
def lookupTree : FsTree → String → Option FileData
  | [], _ => none
  | e :: rest, p => if e.1 = p then some e.2 else lookupTree rest p

/-- os.WriteFile semantics on the tree: overwrite the existing binding of
the path or create a fresh one. -/
def writeFile : FsTree → String → FileData → FsTree
  | [], q, d => [(q, d)]
  | e :: rest, q, d =>
    if e.1 = q then (q, d) :: rest else e :: writeFile rest q d

/-- Output of the sequential copy loops: the mutated target tree, the
per-entry log lines in order, and the progress fractions emitted in order. -/
structure LoopOut where
  target : FsTree
  logs : List String
  fracs : List ℚ
deriving DecidableEq

/-- The copy loop of performFilesUpdate (main.go 1819-1844) over the
enumerated change set: a source read error logs and continues with the next
entry, a write error logs and continues, and only a successful copy logs the
update and emits the fraction (i+1)/n for loop index i.  src models
os.ReadFile on the source side and wOk the success of os.WriteFile. -/
def applyEntries (src : String → Option FileData) (wOk : String → Bool)
    (n : Nat) : List (Nat × String) → FsTree → LoopOut
  | [], t => ⟨t, [], []⟩
  | (i, p) :: rest, t =>
    match src p with
    | none =>
      let r := applyEntries src wOk n rest t
      ⟨r.target, ("Lỗi đọc: " ++ p) :: r.logs, r.fracs⟩
    | some d =>
      if wOk p then
        let r := applyEntries src wOk n rest (writeFile t p d)
        ⟨r.target, ("Cập nhật: " ++ p) :: r.logs, (((i : ℚ) + 1) / (n : ℚ)) :: r.fracs⟩
      else
        let r := applyEntries src wOk n rest t
        ⟨r.target, ("Lỗi ghi: " ++ p) :: r.logs, r.fracs⟩

/-- The single log line the copy loop produces for one enumerated entry:
a read-error line, a write-error line, or the update line. -/
def applyLogLine (src : String → Option FileData) (wOk : String → Bool)
    (e : Nat × String) : String :=
  match src e.2 with
  | none => "Lỗi đọc: " ++ e.2
  | some _ => if wOk e.2 then "Cập nhật: " ++ e.2 else "Lỗi ghi: " ++ e.2

/-- Terminal observables of one performFilesUpdate run. -/
structure ApplyResult where
  target : FsTree
  entryLogs : List String
  progress : List ℚ
  finalMsg : String
  finalStatus : String
deriving DecidableEq

/-- performFilesUpdate (main.go 1812-1856): run the copy loop over the
enumerated change set, emit a final fraction 1 after the loop
(progressBar.SetValue(1) at main.go 1846), and close with the fixed
completion log line (total count and elapsed time only) and the fixed
completion status text. -/
def performFilesUpdate (elapsed : String) (files : List String)
    (src : String → Option FileData) (wOk : String → Bool) (t : FsTree) :
    ApplyResult :=
  let r := applyEntries src wOk files.length files.enum t
  ⟨r.target, r.logs, r.fracs ++ [1],
    (("Hoàn tất cập nhật " ++ toString files.length) ++ " file trong ") ++ elapsed,
    "Cập nhật hoàn tất!"⟩

/-- The zip produced by createBackup's inner walk (main.go 1676-1689) over
the target tree, in walk order: a file whose os.ReadFile fails still has its
entry created by w.Create but never written, so it is stored with empty
content; readOk models per-file readability at backup time. -/
def zipArchive (readOk : String → Bool) (t : FsTree) : List (String × FileData) :=
  t.map (fun e => if readOk e.1 then e else (e.1, []))

/-- The extraction loop of doRestore (main.go 1905-1925) over the enumerated
archive entries: a failing f.Open logs and continues, a failing io.ReadAll
logs and continues, and otherwise os.WriteFile runs with its error ignored,
the entry is logged and the fraction (i+1)/total emitted.  No trailing
fraction 1 is emitted after the loop. -/
def restoreEntries (openOk readAllOk wOk : String → Bool) (total : Nat) :
    List (Nat × String × FileData) → FsTree → LoopOut
  | [], t => ⟨t, [], []⟩
  | (i, p, d) :: rest, t =>
    if openOk p then
      if readAllOk p then
        let t1 := if wOk p then writeFile t p d else t
        let r := restoreEntries openOk readAllOk wOk total rest t1
        ⟨r.target, ("Restore: " ++ p) :: r.logs, (((i : ℚ) + 1) / (total : ℚ)) :: r.fracs⟩
      else
        let r := restoreEntries openOk readAllOk wOk total rest t
        ⟨r.target, ("Lỗi đọc file: " ++ p) :: r.logs, r.fracs⟩
    else
      let r := restoreEntries openOk readAllOk wOk total rest t
      ⟨r.target, ("Lỗi mở file: " ++ p) :: r.logs, r.fracs⟩

/-- doRestore (main.go 1886-1934), restricted to the extraction loop over a
given archive against a given target tree. -/
def doRestore (openOk readAllOk wOk : String → Bool)
    (archive : List (String × FileData)) (t : FsTree) : LoopOut :=
  restoreEntries openOk readAllOk wOk archive.length archive.enum t

/-- Content of the last archive entry bound to a path: later zip entries
overwrite earlier ones during extraction. -/
def lookupLast : List (Nat × String × FileData) → String → Option FileData
  | [], _ => none
  | e :: rest, p =>
    match lookupLast rest p with
    | some d => some d
    | none => if e.2.1 = p then some e.2.2 else none

/- Hidden-file scanner (scanFiles, main.go 263-288) and its stop channel. -/

/-- One invocation of the filepath.Walk callback inside scanFiles: a visit
with a non-nil error, a directory, or a regular file carrying the data the
callback inspects (path, name, size, hidden attribute). -/
inductive ScanEvent where
  | errVisit (path : String) : ScanEvent
  | dirVisit (path : String) : ScanEvent
  | fileVisit (path : String) (fname : String) (size : Nat) (hidden : Bool) : ScanEvent
deriving DecidableEq

/-- The match condition of scanFiles (main.go 281): a regular file whose
lowercased name is ipcas2.ini and whose hidden attribute is set. -/
def scanMatch : ScanEvent → Option (String × Nat)
  | ScanEvent.fileVisit p fname sz hid =>
    if (fname.data.map Char.toLower == ("ipcas2.ini" : String).data) && hid
    then some (p, sz) else none
  | _ => none

/-- One filepath.Walk of scanFiles under the stop channel: the callback
first selects on the channel and returns filepath.SkipAll once it is closed,
which aborts this walk; n counts callback invocations across walks and the
channel is closed from the stopAt-th invocation on. -/
def scanWalk (stopAt : Nat) : List ScanEvent → Nat → List (String × Nat) →
    List (String × Nat) × Nat
  | [], n, acc => (acc, n)
  | ev :: rest, n, acc =>
    if stopAt ≤ n then (acc, n + 1)
    else
      match scanMatch ev with
      | some fi => scanWalk stopAt rest (n + 1) (acc ++ [fi])
      | none => scanWalk stopAt rest (n + 1) acc

/-- scanFiles (main.go 263-288): walk the two VirtualStore roots in order,
threading the collected list and the invocation count through both walks,
and return whatever has been collected when the walks finish or abort. -/
def scanFiles (stopAt : Nat) (evs1 evs2 : List ScanEvent) : List (String × Nat) :=
  let r1 := scanWalk stopAt evs1 0 []
  (scanWalk stopAt evs2 r1.2 r1.1).1

/- Boolean monotonicity recognizers for progress sequences. -/

/-- Strict increase of consecutive elements. -/
def strictlyIncreasingQ : List ℚ → Bool
  | a :: b :: r => decide (a < b) && strictlyIncreasingQ (b :: r)
  | _ => true

/-- Weak increase of consecutive elements. -/
def nonDecreasingQ : List ℚ → Bool
  | a :: b :: r => decide (a ≤ b) && nonDecreasingQ (b :: r)
  | _ => true

/- Concrete fixtures used by witnesses, counterexamples and the code_bug
   evaluation. -/

/-- A digest function for witnesses: constant, hence never empty. -/
def wHash : FileData → String := fun _ => "h"

/-- A concrete target stat function: path s has a size mismatch, path c an
equal-size pair, everything else is missing. -/
def wTgt : String → TgtStat := fun p =>
  if p = "s" then TgtStat.ok 7 (some [0])
  else if p = "c" then TgtStat.ok 2 (some [3, 4])
  else TgtStat.err

/-- A concrete source walk: a missing target, a directory, a size mismatch
and an equal-size up-to-date pair. -/
def wEvents : List WalkEvent :=
  [WalkEvent.fileVisit ⟨"m", 5, some [1]⟩,
   WalkEvent.dirVisit ("d"),
   WalkEvent.fileVisit ⟨"s", 3, some [1, 2, 3]⟩,
   WalkEvent.fileVisit ⟨"c", 2, some [1, 2]⟩]

/-- Backup directory holding four conventionally named archives and one
unrelated file. -/
def cBackupDir : List String :=
  [backupName ("20250101_010101"), backupName ("20250102_010101"),
   backupName ("20250103_010101"), backupName ("20250104_010101"),
   "keep.txt"]

/-- Timestamp of the fifth backup, later than all four existing ones. -/
def cTs : String := "20250105_010101"

/-- Target stat function for the unreadable-file scenario: every path stats
fine with size 4 and readable content. -/
def cUTgt : String → TgtStat := fun _ => TgtStat.ok 4 (some [1, 2, 3, 4])

/-- A single source file of size 4 whose content read fails. -/
def cUEvents : List WalkEvent := [WalkEvent.fileVisit ⟨"u", 4, none⟩]

/-- Source reads for the restore round-trip counterexample. -/
def cSrcRead : String → Option FileData := fun p =>
  if p = "sub/b.txt" then some [50, 50]
  else if p = "a.txt" then some [49] else none

/-- Initial target tree of the restore round-trip counterexample. -/
def cTree0 : FsTree := [("a.txt", [49])]

/-- The post-Apply state S of the round-trip counterexample, reached by
applying the change set the differ would produce for the scenario of the
spec (sub/b.txt missing from the target). -/
def cApplied : FsTree :=
  (performFilesUpdate ("1s") ["sub/b.txt"] cSrcRead (fun _ => true) cTree0).target

/-- The mutation of the round-trip counterexample: one extra file appears. -/
def cMut : FsTree := cApplied ++ [("extra.txt", [9])]

/-- Restoring the backup of cApplied over the mutated tree, with every
backup read and every restore step succeeding. -/
def cRestored : FsTree :=
  (doRestore (fun _ => true) (fun _ => true) (fun _ => true)
    (zipArchive (fun _ => true) cApplied) cMut).target

/-- Change set for the progress and terminal-message scenarios. -/
def cFiles : List String := ["a", "b"]

/-- Source reads where file a is unreadable and everything else readable. -/
def cSrcFail : String → Option FileData := fun p =>
  if p = "a" then none else some [7]

/-- Source reads where everything is readable. -/
def cSrcGood : String → Option FileData := fun _ => some [7]

/-- Scan events for the cancellation scenario: two hidden ipcas2.ini files,
the stop signal arriving after the first one is visited. -/
def cScanEvents : List ScanEvent :=
  [ScanEvent.fileVisit ("p") ("IPCAS2.INI") 5 true,
   ScanEvent.fileVisit ("q") ("ipcas2.ini") 7 true]

/-- The default source root of the update engine (main.go 1603). -/
def updateSourcePathDefault : String := "\\\\10.32.128.12\\IPCAS2\\Bin"

/- Helper lemmas about the differ fold. -/

/-- The walk callback never returns a non-nil error, so the fold collects
exactly the per-event emissions, produces no log line and ends with a nil
error. -/
theorem diffWalk_eq (hash : FileData → String) (tgt : String → TgtStat) :
    ∀ (events : List WalkEvent) (acc : List String),
      diffWalk hash tgt events acc =
        ⟨acc ++ events.filterMap (codeEmit hash tgt), [], none⟩ := by
  intro events
  induction events with
  | nil => intro acc; simp [diffWalk]
  | cons ev rest ih =>
    intro acc
    cases ev with
    | errVisit p =>
      simpa [diffWalk, diffCallback, codeEmit] using ih acc
    | dirVisit p =>
      simpa [diffWalk, diffCallback, codeEmit] using ih acc
    | fileVisit f =>
      by_cases h : needUpdate hash f (tgt f.relPath) = true
      · simp [diffWalk, diffCallback, codeEmit, h, ih]
      · simp [diffWalk, diffCallback, codeEmit, h, ih]

/-- Under the readability side conditions, the code's per-file decision
coincides with the spec's decision. -/
theorem needUpdate_eq_specNeedsUpdate (hash : FileData → String)
    (hNE : ∀ d, hash d ≠ "") (f : SrcFile) (t : TgtStat)
    (hf : f.data.isSome = true)
    (ht : ∀ s d, t = TgtStat.ok s d → d.isSome = true) :
    needUpdate hash f t = specNeedsUpdate hash f t := by
  cases t with
  | err => rfl
  | ok ts td =>
    have htd : td.isSome = true := ht ts td rfl
    obtain ⟨ds, hds⟩ := Option.isSome_iff_exists.mp hf
    obtain ⟨dt, hdt⟩ := Option.isSome_iff_exists.mp htd
    by_cases hsz : f.size = ts
    · simp [needUpdate, specNeedsUpdate, hsz, hds, hdt, fileHash,
        hNE ds, hNE dt]
    · simp [needUpdate, specNeedsUpdate, hsz]

/-- C1: for every regular file under sourceRoot, the differ emits a change
entry exactly when the target stat fails (absent or unreachable: Missing),
or the sizes differ (SizeMismatch), or the sizes are equal and the content
hashes differ (ContentMismatch); with equal sizes and hashes no entry is
emitted.  Moreover, when sizes differ the decision is independent of the
hash function — the hash computation is skipped entirely.  The hypotheses
say the digest is never the empty string (true of the hex MD5 digest) and
that the contents compared were readable; the source records only the
relative path of each entry, the Reason being the branch that fired. -/
theorem diff_emission_exactly (hash : FileData → String) (tgt : String → TgtStat)
    (events : List WalkEvent)
    (hNE : ∀ d, hash d ≠ "")
    (hR : ∀ ev ∈ events, eventReadable tgt ev = true) :
    (getFilesToUpdate hash tgt events).toUpdate
        = events.filterMap (specEmit hash tgt)
      ∧ ∀ (h1 h2 : FileData → String) (f : SrcFile) (ts : Nat)
          (td : Option FileData), f.size ≠ ts →
          needUpdate h1 f (TgtStat.ok ts td) = needUpdate h2 f (TgtStat.ok ts td) := by
  constructor
  · rw [getFilesToUpdate, diffWalk_eq]
    simp only [List.nil_append]
    apply List.filterMap_congr
    intro ev hev
    cases ev with
    | errVisit p => rfl
    | dirVisit p => rfl
    | fileVisit f =>
      have hre := hR _ hev
      simp only [eventReadable, Bool.and_eq_true] at hre
      have hf : f.data.isSome = true := hre.1
      have ht : ∀ s d, tgt f.relPath = TgtStat.ok s d → d.isSome = true := by
        intro s d hsd
        have := hre.2
        rw [hsd] at this
        exact this
      rw [codeEmit, specEmit,
        needUpdate_eq_specNeedsUpdate hash hNE f (tgt f.relPath) hf ht]
  · intro h1 h2 f ts td hsz
    simp [needUpdate, hsz]

/-- Witness for C1 at a concrete walk: a missing target, a directory, a size
mismatch and an up-to-date equal pair, under a constant (hence nonempty)
digest. -/
theorem diff_emission_exactly_witness :
    (getFilesToUpdate wHash wTgt wEvents).toUpdate
        = wEvents.filterMap (specEmit wHash wTgt)
      ∧ ∀ (h1 h2 : FileData → String) (f : SrcFile) (ts : Nat)
          (td : Option FileData), f.size ≠ ts →
          needUpdate h1 f (TgtStat.ok ts td) = needUpdate h2 f (TgtStat.ok ts td) :=
  diff_emission_exactly wHash wTgt wEvents (by intro d; simp [wHash]) (by decide)

/-- C10: getFilesToUpdate returns a nil error on every input whatsoever,
because its walk callback maps every walk error to nil; consequently the
connection-error branch of doCheck and doUpdate can never be taken. -/
theorem getFilesToUpdate_err_always_none (hash : FileData → String)
    (tgt : String → TgtStat) (events : List WalkEvent) :
    (getFilesToUpdate hash tgt events).err = none
      ∧ isConnError (doCheckStatus (getFilesToUpdate hash tgt events)) = false := by
  rw [getFilesToUpdate, diffWalk_eq]
  constructor
  · rfl
  · rw [doCheckStatus]
    by_cases h : (events.filterMap (codeEmit hash tgt)).length = 0 <;>
      simp [h, isConnError]

/-- C2 (code bug evaluation): with the source root unreachable, the walk
callback swallows the root error, getFilesToUpdate returns an empty list
with a nil error, and doCheck lands in the up-to-date branch instead of the
connection-error branch its own dead code provides for. -/
theorem doCheck_unreachable_source_reports_upToDate :
    doCheckStatus (getFilesToUpdate wHash wTgt
      (walkDirEvents updateSourcePathDefault none)) = CheckStatus.upToDate := by decide

/-- C9 (counterexample): a source file of size 4 whose content read fails,
against a stat-clean target of the same size, is skipped — but the differ
emits no log line at all for it, contradicting the claim that the skip is
logged. -/
theorem diff_unreadable_skip_unlogged :
    (getFilesToUpdate wHash cUTgt cUEvents).toUpdate = []
      ∧ (getFilesToUpdate wHash cUTgt cUEvents).logs = []
      ∧ (getFilesToUpdate wHash cUTgt cUEvents).err = none := by decide

/-- C9 (amended): an equal-size file pair either side of which is unreadable
is skipped without failing the operation, but silently: the walk callback
contains no logging call, so the differ's log output is empty and its error
nil on every input. -/
theorem diff_unreadable_skip_silent_amended (hash : FileData → String)
    (tgt : String → TgtStat) (events : List WalkEvent) (f : SrcFile)
    (ts : Nat) (td : Option FileData)
    (hsz : f.size = ts) (hun : f.data = none ∨ td = none) :
    needUpdate hash f (TgtStat.ok ts td) = false
      ∧ (getFilesToUpdate hash tgt events).logs = []
      ∧ (getFilesToUpdate hash tgt events).err = none := by
  refine ⟨?_, ?_, ?_⟩
  · rcases hun with h | h <;> simp [needUpdate, hsz, h, fileHash]
  · rw [getFilesToUpdate, diffWalk_eq]
  · rw [getFilesToUpdate, diffWalk_eq]

/-- Witness for the amended C9 at the concrete unreadable-source scenario. -/
theorem diff_unreadable_skip_silent_amended_witness :
    needUpdate wHash ⟨"u", 4, none⟩ (TgtStat.ok 4 (some [1, 2, 3, 4])) = false
      ∧ (getFilesToUpdate wHash cUTgt cUEvents).logs = []
      ∧ (getFilesToUpdate wHash cUTgt cUEvents).err = none :=
  diff_unreadable_skip_silent_amended wHash cUTgt cUEvents ⟨"u", 4, none⟩ 4
    (some [1, 2, 3, 4]) (by decide) (Or.inl rfl)

/- Helper lemmas about the apply loop. -/

/-- The copy loop produces exactly one log line per enumerated entry,
whatever mixture of read failures, write failures and successes occurs. -/
theorem applyEntries_logs (src : String → Option FileData) (wOk : String → Bool)
    (n : Nat) :
    ∀ (entries : List (Nat × String)) (t : FsTree),
      (applyEntries src wOk n entries t).logs = entries.map (applyLogLine src wOk) := by
  intro entries
  induction entries with
  | nil => intro t; rfl
  | cons e rest ih =>
    intro t
    obtain ⟨i, p⟩ := e
    cases hs : src p with
    | none => simp [applyEntries, hs, applyLogLine, ih]
    | some d =>
      by_cases hw : wOk p = true
      · simp [applyEntries, hs, hw, applyLogLine, ih]
      · simp [applyEntries, hs, hw, applyLogLine, ih]

/-- The copy loop emits the fraction (i+1)/n exactly for the entries whose
read and write both succeed, in entry order. -/
theorem applyEntries_fracs (src : String → Option FileData) (wOk : String → Bool)
    (n : Nat) :
    ∀ (entries : List (Nat × String)) (t : FsTree),
      (applyEntries src wOk n entries t).fracs
        = (entries.filter (fun e => (src e.2).isSome && wOk e.2)).map
            (fun e => ((e.1 : ℚ) + 1) / (n : ℚ)) := by
  intro entries
  induction entries with
  | nil => intro t; rfl
  | cons e rest ih =>
    intro t
    obtain ⟨i, p⟩ := e
    cases hs : src p with
    | none => simp [applyEntries, hs, ih]
    | some d =>
      by_cases hw : wOk p = true
      · simp [applyEntries, hs, hw, ih]
      · simp [applyEntries, hs, hw, ih]

/-- C5: every per-entry read or write failure during Apply is logged and
processing continues with the next entry — the loop produces exactly one
log line per entry of the change set, in order, whatever the failure
pattern, and the terminal status is the fixed completion text, identical
across failure patterns: per-file errors never surface as a failure of the
whole operation. -/
theorem apply_per_entry_failures_nonfatal (elapsed : String) (files : List String)
    (src src2 : String → Option FileData) (wOk wOk2 : String → Bool) (t : FsTree) :
    (performFilesUpdate elapsed files src wOk t).entryLogs
        = files.enum.map (applyLogLine src wOk)
      ∧ (performFilesUpdate elapsed files src wOk t).entryLogs.length = files.length
      ∧ (performFilesUpdate elapsed files src wOk t).finalStatus = "Cập nhật hoàn tất!"
      ∧ (performFilesUpdate elapsed files src wOk t).finalStatus
          = (performFilesUpdate elapsed files src2 wOk2 t).finalStatus
      ∧ (performFilesUpdate elapsed files src wOk t).finalMsg
          = (performFilesUpdate elapsed files src2 wOk2 t).finalMsg := by
  refine ⟨?_, ?_, rfl, rfl, rfl⟩
  · rw [performFilesUpdate]
    exact applyEntries_logs src wOk files.length files.enum t
  · rw [performFilesUpdate]
    simp [applyEntries_logs src wOk files.length files.enum t]

/-- C8 (counterexample): two runs over the same two-entry change set, one
fully successful and one with a read failure on the first entry, end with
the same terminal message — the failing entry shows up in the per-entry log
stream of the failing run only, so the terminal result reports no failure
count. -/
theorem apply_terminal_message_ignores_failures :
    (performFilesUpdate ("2s") cFiles cSrcGood (fun _ => true) []).finalMsg
        = (performFilesUpdate ("2s") cFiles cSrcFail (fun _ => true) []).finalMsg
      ∧ ("Lỗi đọc: " ++ "a")
          ∈ (performFilesUpdate ("2s") cFiles cSrcFail (fun _ => true) []).entryLogs
      ∧ (("Lỗi đọc: " ++ "a")
          ∈ (performFilesUpdate ("2s") cFiles cSrcGood (fun _ => true) []).entryLogs) = False :=
  ⟨by decide, by decide, eq_false (by decide)⟩

/-- C8 (amended): every Apply ends with a terminal message reporting the
total number of entries in the change set and the elapsed duration, plus a
fixed completion status; the terminal output is a function of the change-set
size and elapsed time alone — success and failure counts are not part of it,
failures appearing only as per-entry log lines. -/
theorem apply_terminal_message_amended (elapsed : String) (files : List String)
    (t : FsTree) (src1 src2 : String → Option FileData) (wOk1 wOk2 : String → Bool) :
    (performFilesUpdate elapsed files src1 wOk1 t).finalMsg
        = (("Hoàn tất cập nhật " ++ toString files.length) ++ " file trong ") ++ elapsed
      ∧ (performFilesUpdate elapsed files src1 wOk1 t).finalMsg
          = (performFilesUpdate elapsed files src2 wOk2 t).finalMsg
      ∧ (performFilesUpdate elapsed files src1 wOk1 t).finalStatus
          = (performFilesUpdate elapsed files src2 wOk2 t).finalStatus :=
  ⟨rfl, rfl, rfl⟩

/- Helper lemmas about enumeration indices and progress sequences. -/

/-- Every index produced by enumFrom lies in the enumerated range. -/
theorem mem_enumFrom_bounds {α : Type} :
    ∀ (l : List α) (k : Nat) (e : Nat × α), e ∈ List.enumFrom k l →
      k ≤ e.1 ∧ e.1 < k + l.length := by
  intro l
  induction l with
  | nil => intro k e he; simp [List.enumFrom] at he
  | cons x xs ih =>
    intro k e he
    simp only [List.enumFrom, List.mem_cons] at he
    rcases he with h | h
    · subst h; simp
    · have := ih (k + 1) e h
      constructor
      · omega
      · simp only [List.length_cons]; omega

/-- The indices of an enumeration are strictly increasing along the list. -/
theorem pairwise_fst_lt_enumFrom {α : Type} :
    ∀ (l : List α) (k : Nat),
      List.Pairwise (fun a b : Nat × α => a.1 < b.1) (List.enumFrom k l) := by
  intro l
  induction l with
  | nil => intro k; simp [List.enumFrom]
  | cons x xs ih =>
    intro k
    simp only [List.enumFrom]
    refine List.pairwise_cons.mpr ⟨?_, ih (k + 1)⟩
    intro e he
    have := mem_enumFrom_bounds xs (k + 1) e he
    omega

/-- A mapped list is strictly increasing when the map is strictly monotone
in the first components and those are pairwise increasing. -/
theorem strictlyIncreasingQ_map_of_pairwise {α : Type} (f : Nat × α → ℚ)
    (hf : ∀ i j : Nat × α, i.1 < j.1 → f i < f j) :
    ∀ l : List (Nat × α), List.Pairwise (fun a b : Nat × α => a.1 < b.1) l →
      strictlyIncreasingQ (l.map f) = true
  | [], _ => rfl
  | [a], _ => rfl
  | a :: b :: r, h => by
    have h1 : a.1 < b.1 := (List.pairwise_cons.mp h).1 b (by simp)
    have h2 := strictlyIncreasingQ_map_of_pairwise f hf (b :: r)
      (List.pairwise_cons.mp h).2
    simp only [List.map_cons] at h2 ⊢
    simp only [strictlyIncreasingQ, Bool.and_eq_true, decide_eq_true_eq]
    exact ⟨hf a b h1, h2⟩

/-- Appending one value bounding the list above keeps a strictly increasing
sequence weakly increasing. -/
theorem nonDecreasingQ_append_last :
    ∀ (l : List ℚ) (c : ℚ), strictlyIncreasingQ l = true →
      (∀ x ∈ l, x ≤ c) → nonDecreasingQ (l ++ [c]) = true
  | [], c, _, _ => rfl
  | [a], c, _, hb => by
    simp only [List.cons_append, List.nil_append, nonDecreasingQ,
      Bool.and_eq_true, decide_eq_true_eq]
    exact ⟨hb a (by simp), trivial⟩
  | a :: b :: r, c, hs, hb => by
    have hab : a < b ∧ strictlyIncreasingQ (b :: r) = true := by
      simpa [strictlyIncreasingQ] using hs
    have ih := nonDecreasingQ_append_last (b :: r) c hab.2
      (fun x hx => hb x (by simp [hx]))
    simp only [List.cons_append] at ih ⊢
    simp only [nonDecreasingQ, Bool.and_eq_true, decide_eq_true_eq]
    refine ⟨le_of_lt hab.1, ?_⟩
    simpa using ih

/-- The extraction loop of doRestore emits the fraction (i+1)/total exactly
for the entries whose open and read both succeed, in entry order. -/
theorem restoreEntries_fracs (openOk readAllOk wOk : String → Bool) (total : Nat) :
    ∀ (entries : List (Nat × String × FileData)) (t : FsTree),
      (restoreEntries openOk readAllOk wOk total entries t).fracs
        = (entries.filter (fun e => openOk e.2.1 && readAllOk e.2.1)).map
            (fun e => ((e.1 : ℚ) + 1) / (total : ℚ)) := by
  intro entries
  induction entries with
  | nil => intro t; rfl
  | cons e rest ih =>
    intro t
    obtain ⟨i, p, d⟩ := e
    by_cases ho : openOk p = true
    · by_cases hr : readAllOk p = true
      · simp [restoreEntries, ho, hr, ih]
      · simp [restoreEntries, ho, hr, ih]
    · simp [restoreEntries, ho, ih]

/-- C7 (counterexample): over the two-entry change set where the first read
fails, the emitted progress sequence is [1, 1] — the failing entry emits no
fraction at all (the loop continues before reaching the progress update),
and the sequence is not strictly increasing; the claim predicts [1/2, 1]. -/
theorem apply_progress_skips_failed_entry :
    (performFilesUpdate ("3s") cFiles cSrcFail (fun _ => true) []).progress = [1, 1]
      ∧ strictlyIncreasingQ
          ((performFilesUpdate ("3s") cFiles cSrcFail (fun _ => true) []).progress) = false
      ∧ cFiles.length = 2 := by
  have h : (performFilesUpdate ("3s") cFiles cSrcFail (fun _ => true) []).progress
      = [1, 1] := by
    simp [performFilesUpdate, applyEntries, cFiles, cSrcFail]
  refine ⟨h, ?_, rfl⟩
  rw [h]
  simp [strictlyIncreasingQ]

/-- C7 (amended): during Apply, the fraction (i+1)/n is emitted only after
each successfully copied entry (i its 0-based index among all n entries of
the change set), failed entries emitting none, and a final fraction 1 is
emitted after the loop; during Restore, (i+1)/total is emitted after each
entry whose open and read succeed (write errors are ignored and still
emit), with no trailing 1.  The in-loop sequences are strictly increasing
and Apply's full sequence is non-decreasing. -/
theorem progress_monotone_amended (elapsed : String) (files : List String)
    (src : String → Option FileData) (wOk : String → Bool) (t : FsTree)
    (openOk readAllOk wOk2 : String → Bool)
    (archive : List (String × FileData)) (M : FsTree)
    (hn : 0 < files.length) :
    (performFilesUpdate elapsed files src wOk t).progress
        = ((files.enum.filter (fun e => (src e.2).isSome && wOk e.2)).map
            (fun e => ((e.1 : ℚ) + 1) / (files.length : ℚ))) ++ [1]
      ∧ strictlyIncreasingQ
          ((files.enum.filter (fun e => (src e.2).isSome && wOk e.2)).map
            (fun e => ((e.1 : ℚ) + 1) / (files.length : ℚ))) = true
      ∧ nonDecreasingQ ((performFilesUpdate elapsed files src wOk t).progress) = true
      ∧ (doRestore openOk readAllOk wOk2 archive M).fracs
          = ((archive.enum.filter (fun e => openOk e.2.1 && readAllOk e.2.1)).map
            (fun e => ((e.1 : ℚ) + 1) / (archive.length : ℚ)))
      ∧ strictlyIncreasingQ ((doRestore openOk readAllOk wOk2 archive M).fracs) = true := by
  have hnq : (0 : ℚ) < (files.length : ℚ) := by exact_mod_cast hn
  have hmono : ∀ i j : Nat × String, i.1 < j.1 →
      ((i.1 : ℚ) + 1) / (files.length : ℚ) < ((j.1 : ℚ) + 1) / (files.length : ℚ) := by
    intro i j hij
    have hq : ((i.1 : ℚ) + 1) < ((j.1 : ℚ) + 1) := by
      have : (i.1 : ℚ) < (j.1 : ℚ) := by exact_mod_cast hij
      linarith
    exact div_lt_div_of_pos_right hq hnq
  have hpw : List.Pairwise (fun a b : Nat × String => a.1 < b.1)
      (files.enum.filter (fun e => (src e.2).isSome && wOk e.2)) :=
    List.Pairwise.sublist (List.filter_sublist _) (pairwise_fst_lt_enumFrom files 0)
  have hstrict := strictlyIncreasingQ_map_of_pairwise _ hmono _ hpw
  have hfracs : (performFilesUpdate elapsed files src wOk t).progress
      = ((files.enum.filter (fun e => (src e.2).isSome && wOk e.2)).map
          (fun e => ((e.1 : ℚ) + 1) / (files.length : ℚ))) ++ [1] := by
    rw [performFilesUpdate]
    simp [applyEntries_fracs src wOk files.length files.enum t]
  refine ⟨hfracs, hstrict, ?_, ?_, ?_⟩
  · rw [hfracs]
    apply nonDecreasingQ_append_last _ _ hstrict
    intro x hx
    simp only [List.mem_map] at hx
    obtain ⟨e, he, hex⟩ := hx
    have hmem : e ∈ files.enum := List.mem_of_mem_filter he
    have hb := mem_enumFrom_bounds files 0 e hmem
    rw [← hex, div_le_one hnq]
    have : (e.1 : ℚ) + 1 ≤ (files.length : ℚ) := by
      have : e.1 + 1 ≤ files.length := by omega
      exact_mod_cast this
    exact this
  · rw [doRestore]
    exact restoreEntries_fracs openOk readAllOk wOk2 archive.length archive.enum M
  · rw [doRestore, restoreEntries_fracs openOk readAllOk wOk2 archive.length archive.enum M]
    rcases Nat.eq_zero_or_pos archive.length with hz | hpos
    · have : archive = [] := List.length_eq_zero.mp hz
      subst this
      rfl
    · have hnq2 : (0 : ℚ) < (archive.length : ℚ) := by exact_mod_cast hpos
      have hmono2 : ∀ i j : Nat × String × FileData, i.1 < j.1 →
          ((i.1 : ℚ) + 1) / (archive.length : ℚ)
            < ((j.1 : ℚ) + 1) / (archive.length : ℚ) := by
        intro i j hij
        have hq : ((i.1 : ℚ) + 1) < ((j.1 : ℚ) + 1) := by
          have : (i.1 : ℚ) < (j.1 : ℚ) := by exact_mod_cast hij
          linarith
        exact div_lt_div_of_pos_right hq hnq2
      exact strictlyIncreasingQ_map_of_pairwise _ hmono2 _
        (List.Pairwise.sublist (List.filter_sublist _)
          (pairwise_fst_lt_enumFrom archive 0))

/-- Witness for the amended C7: the two-entry change set with a failing
first read and a one-entry archive with every oracle succeeding. -/
theorem progress_monotone_amended_witness :
    (performFilesUpdate ("3s") cFiles cSrcFail (fun _ => true) []).progress
        = ((cFiles.enum.filter (fun e => (cSrcFail e.2).isSome && true)).map
            (fun e => ((e.1 : ℚ) + 1) / (cFiles.length : ℚ))) ++ [1]
      ∧ strictlyIncreasingQ
          ((cFiles.enum.filter (fun e => (cSrcFail e.2).isSome && true)).map
            (fun e => ((e.1 : ℚ) + 1) / (cFiles.length : ℚ))) = true
      ∧ nonDecreasingQ ((performFilesUpdate ("3s") cFiles cSrcFail (fun _ => true) []).progress) = true
      ∧ (doRestore (fun _ => true) (fun _ => true) (fun _ => true)
            [("r", [1])] []).fracs
          = ((([("r", [1])] : List (String × FileData)).enum.filter
              (fun _ => true && true)).map
            (fun e => ((e.1 : ℚ) + 1) / ((1 : Nat) : ℚ)))
      ∧ strictlyIncreasingQ ((doRestore (fun _ => true) (fun _ => true) (fun _ => true)
            [("r", [1])] []).fracs) = true :=
  progress_monotone_amended ("3s") cFiles cSrcFail (fun _ => true) []
    (fun _ => true) (fun _ => true) (fun _ => true) [("r", [1])] [] (by decide)

/- Helper lemmas about the scanner walk and its stop channel. -/

/-- While the invocation counter is below the stop point, one walk collects
exactly the matches among the next stopAt - n events. -/
theorem scanWalk_collect (stopAt : Nat) :
    ∀ (evs : List ScanEvent) (n : Nat) (acc : List (String × Nat)), n ≤ stopAt →
      (scanWalk stopAt evs n acc).1
        = acc ++ (evs.take (stopAt - n)).filterMap scanMatch := by
  intro evs
  induction evs with
  | nil => intro n acc _; simp [scanWalk]
  | cons ev rest ih =>
    intro n acc hn
    by_cases h : stopAt ≤ n
    · have : n = stopAt := le_antisymm hn h
      subst this
      simp [scanWalk]
    · have hlt : n < stopAt := lt_of_le_of_ne hn (fun e => h (le_of_eq e.symm))
      have hk : stopAt - n = (stopAt - (n + 1)) + 1 := by omega
      rw [hk]
      cases hm : scanMatch ev with
      | some fi =>
        simp [scanWalk, h, hm, ih (n + 1) (acc ++ [fi]) hlt]
      | none =>
        simp [scanWalk, h, hm, ih (n + 1) acc hlt]

/-- A walk that finishes before the stop point advances the counter by its
number of events. -/
theorem scanWalk_counter_noStop (stopAt : Nat) :
    ∀ (evs : List ScanEvent) (n : Nat) (acc : List (String × Nat)),
      n + evs.length ≤ stopAt → (scanWalk stopAt evs n acc).2 = n + evs.length := by
  intro evs
  induction evs with
  | nil => intro n acc _; simp [scanWalk]
  | cons ev rest ih =>
    intro n acc hlen
    simp only [List.length_cons] at hlen
    have h : ¬ stopAt ≤ n := by omega
    cases hm : scanMatch ev with
    | some fi =>
      rw [scanWalk]
      simp only [h, if_false, hm]
      rw [ih (n + 1) (acc ++ [fi]) (by omega)]
      simp only [List.length_cons]
      omega
    | none =>
      rw [scanWalk]
      simp only [h, if_false, hm]
      rw [ih (n + 1) acc (by omega)]
      simp only [List.length_cons]
      omega

/-- A walk that hits the stop point leaves the counter just past it. -/
theorem scanWalk_counter_abort (stopAt : Nat) :
    ∀ (evs : List ScanEvent) (n : Nat) (acc : List (String × Nat)),
      n ≤ stopAt → stopAt < n + evs.length →
      (scanWalk stopAt evs n acc).2 = stopAt + 1 := by
  intro evs
  induction evs with
  | nil => intro n acc hn habs; simp at habs; omega
  | cons ev rest ih =>
    intro n acc hn habs
    by_cases h : stopAt ≤ n
    · have : n = stopAt := le_antisymm hn h
      subst this
      simp [scanWalk]
    · have hlt : n < stopAt := lt_of_le_of_ne hn (fun e => h (le_of_eq e.symm))
      simp only [List.length_cons] at habs
      cases hm : scanMatch ev with
      | some fi =>
        rw [scanWalk]
        simp only [h, if_false, hm]
        exact ih (n + 1) (acc ++ [fi]) hlt (by omega)
      | none =>
        rw [scanWalk]
        simp only [h, if_false, hm]
        exact ih (n + 1) acc hlt (by omega)

/-- A walk started at or past the stop point collects nothing. -/
theorem scanWalk_stopped (stopAt : Nat) :
    ∀ (evs : List ScanEvent) (n : Nat) (acc : List (String × Nat)),
      stopAt ≤ n → (scanWalk stopAt evs n acc).1 = acc := by
  intro evs n acc h
  cases evs with
  | nil => rfl
  | cons ev rest => simp [scanWalk, h]

/-- C6 (counterexample): with the stop signal arriving after the first file
is visited, the scan returns the one entry already collected — a nonempty,
partial result, not the empty result the claim requires; tabScan then
displays it. -/
theorem cancelled_scan_returns_partial :
    (scanFiles 1 cScanEvents []).isEmpty = false
      ∧ scanFiles 1 cScanEvents [] = [("p", 5)] := by decide

/-- C6 (amended): a scan that receives the stop signal during its tree walk
aborts the walk promptly but returns exactly the matches among the files
visited before the stop was observed — the already-collected partial result,
which the caller then uses; it is not discarded.  (The update differ itself
observes no stop signal at all; the stop channel exists only in this
hidden-file scanner, the code the claim cites.) -/
theorem cancelled_scan_prefix_amended (stopAt : Nat) (evs1 evs2 : List ScanEvent) :
    scanFiles stopAt evs1 evs2 = ((evs1 ++ evs2).take stopAt).filterMap scanMatch := by
  rw [scanFiles]
  by_cases h : evs1.length ≤ stopAt
  · have h1c := scanWalk_collect stopAt evs1 0 [] (Nat.zero_le _)
    have h1n := scanWalk_counter_noStop stopAt evs1 0 [] (by omega)
    simp only [Nat.zero_add, Nat.sub_zero, List.nil_append] at h1c h1n
    rw [h1n, scanWalk_collect stopAt evs2 evs1.length _ h, h1c]
    rw [List.take_append_eq_append_take, List.take_of_length_le h,
      List.filterMap_append]
  · push_neg at h
    have h1c := scanWalk_collect stopAt evs1 0 [] (Nat.zero_le _)
    have h1n := scanWalk_counter_abort stopAt evs1 0 [] (Nat.zero_le _) (by omega)
    simp only [Nat.zero_add, Nat.sub_zero, List.nil_append] at h1c h1n
    rw [h1n, scanWalk_stopped stopAt evs2 (stopAt + 1) _ (by omega), h1c]
    rw [List.take_append_eq_append_take]
    have : stopAt - evs1.length = 0 := by omega
    rw [this]
    simp

/- Order lemmas for the lexicographic name comparison. -/

/-- The strict comparison is irreflexive. -/
theorem charsLt_irrefl : ∀ x : List Char, charsLt x x = false := by
  intro x
  induction x with
  | nil => rfl
  | cons a as ih => simp [charsLt, ih]

/-- The strict comparison is transitive. -/
theorem charsLt_trans : ∀ x y z : List Char,
    charsLt x y = true → charsLt y z = true → charsLt x z = true := by
  intro x
  induction x with
  | nil =>
    intro y z hxy hyz
    cases y with
    | nil => simp [charsLt] at hxy
    | cons b bs =>
      cases z with
      | nil => simp [charsLt] at hyz
      | cons c cs => rfl
  | cons a as ih =>
    intro y z hxy hyz
    cases y with
    | nil => simp [charsLt] at hxy
    | cons b bs =>
      cases z with
      | nil => simp [charsLt] at hyz
      | cons c cs =>
        simp only [charsLt, Bool.or_eq_true, Bool.and_eq_true,
          decide_eq_true_eq] at hxy hyz ⊢
        rcases hxy with hab | ⟨hab, has⟩
        · rcases hyz with hbc | ⟨hbc, _⟩
          · exact Or.inl (lt_trans hab hbc)
          · exact Or.inl (hbc ▸ hab)
        · rcases hyz with hbc | ⟨hbc, hbs⟩
          · exact Or.inl (hab ▸ hbc)
          · exact Or.inr ⟨hab.trans hbc, ih bs cs has hbs⟩

/-- The strict comparison is asymmetric. -/
theorem charsLt_asymm {x y : List Char}
    (h1 : charsLt x y = true) (h2 : charsLt y x = true) : False := by
  have := charsLt_trans x y x h1 h2
  rw [charsLt_irrefl] at this
  exact Bool.false_ne_true this

/-- Trichotomy of the comparison. -/
theorem charsTrichotomy : ∀ x y : List Char,
    charsLt x y = true ∨ x = y ∨ charsLt y x = true := by
  intro x
  induction x with
  | nil =>
    intro y
    cases y with
    | nil => exact Or.inr (Or.inl rfl)
    | cons b bs => exact Or.inl rfl
  | cons a as ih =>
    intro y
    cases y with
    | nil => exact Or.inr (Or.inr rfl)
    | cons b bs =>
      rcases lt_trichotomy a b with hab | hab | hab
      · exact Or.inl (by simp [charsLt, hab])
      · subst hab
        rcases ih bs with h | h | h
        · exact Or.inl (by simp [charsLt, h])
        · exact Or.inr (Or.inl (by rw [h]))
        · exact Or.inr (Or.inr (by simp [charsLt, h]))
      · exact Or.inr (Or.inr (by simp [charsLt, hab]))

/-- Unfolding of the reflexive closure. -/
theorem charsLe_iff {x y : List Char} :
    charsLe x y = true ↔ charsLt x y = true ∨ x = y := by
  simp [charsLe]

/-- The reflexive closure is transitive. -/
theorem charsLe_trans {x y z : List Char}
    (h1 : charsLe x y = true) (h2 : charsLe y z = true) : charsLe x z = true := by
  rw [charsLe_iff] at h1 h2 ⊢
  rcases h1 with h1 | h1
  · rcases h2 with h2 | h2
    · exact Or.inl (charsLt_trans x y z h1 h2)
    · exact Or.inl (h2 ▸ h1)
  · subst h1
    exact h2

/-- The reflexive closure is total. -/
theorem charsLe_total (x y : List Char) :
    charsLe x y = true ∨ charsLe y x = true := by
  rcases charsTrichotomy x y with h | h | h
  · exact Or.inl (charsLe_iff.mpr (Or.inl h))
  · exact Or.inl (charsLe_iff.mpr (Or.inr h))
  · exact Or.inr (charsLe_iff.mpr (Or.inl h))

/-- A strictly smaller name is not at-or-above. -/
theorem charsLt_not_ge {x y : List Char}
    (h1 : charsLt x y = true) (h2 : charsLe y x = true) : False := by
  rcases charsLe_iff.mp h2 with h | h
  · exact charsLt_asymm h1 h
  · subst h
    rw [charsLt_irrefl] at h1
    exact Bool.false_ne_true h1

/- Insertion sort lemmas for the descending name sort. -/

/-- Inserting permutes the cons. -/
theorem insertDesc_perm (x : String) :
    ∀ l : List String, List.Perm (insertDesc x l) (x :: l) := by
  intro l
  induction l with
  | nil => rfl
  | cons y ys ih =>
    by_cases h : charsLe y.data x.data = true
    · simp [insertDesc, h]
    · simp only [insertDesc, h, if_false]
      exact ((ih.cons y).trans (List.Perm.swap x y ys))

/-- The descending sort permutes its input. -/
theorem sortDesc_perm : ∀ l : List String, List.Perm (sortDesc l) l := by
  intro l
  induction l with
  | nil => rfl
  | cons x xs ih => exact (insertDesc_perm x (sortDesc xs)).trans (ih.cons x)

/-- Membership in the descending sort. -/
theorem mem_sortDesc {l : List String} {a : String} :
    a ∈ sortDesc l ↔ a ∈ l := (sortDesc_perm l).mem_iff

/-- Inserting into a descending-sorted list keeps it sorted. -/
theorem insertDesc_sorted (x : String) :
    ∀ l : List String, List.Pairwise sortsGE l →
      List.Pairwise sortsGE (insertDesc x l) := by
  intro l
  induction l with
  | nil => intro _; simp [insertDesc, sortsGE]
  | cons y ys ih =>
    intro hp
    have hy := List.pairwise_cons.mp hp
    by_cases h : charsLe y.data x.data = true
    · simp only [insertDesc, h, if_true]
      refine List.pairwise_cons.mpr ⟨?_, hp⟩
      intro z hz
      rcases List.mem_cons.mp hz with hz | hz
      · subst hz; exact h
      · exact charsLe_trans (hy.1 z hz) h
    · simp only [insertDesc, h, if_false]
      refine List.pairwise_cons.mpr ⟨?_, ih hy.2⟩
      intro z hz
      have hz2 := (insertDesc_perm x ys).mem_iff.mp hz
      rcases List.mem_cons.mp hz2 with hz2 | hz2
      · rw [hz2]
        rcases charsLe_total (y.data) (x.data) with hc | hc
        · exact absurd hc h
        · exact hc
      · exact hy.1 z hz2

/-- The descending sort is sorted along sortsGE. -/
theorem sortDesc_sorted : ∀ l : List String, List.Pairwise sortsGE (sortDesc l) := by
  intro l
  induction l with
  | nil => simp [sortDesc]
  | cons x xs ih => exact insertDesc_sorted x (sortDesc xs) ih

/- Naming-convention lemmas. -/

/-- Appending characters on the right preserves a prefix. -/
theorem charsPrefix_append_self : ∀ p r : List Char, charsPrefix p (p ++ r) = true := by
  intro p
  induction p with
  | nil => intro r; rfl
  | cons a as ih => intro r; simp [charsPrefix, ih]

/-- String append acts as list append on the character data. -/
theorem stringDataAppend (s t : String) : (s ++ t).data = s.data ++ t.data := by
  cases s; cases t; rfl

/-- Every name the archiver builds matches its own naming convention. -/
theorem isBackupFile_backupName (ts : String) :
    isBackupFile (backupName ts) = true := by
  have hdata : (backupName ts).data
      = ("BK_" : String).data ++ (ts.data ++ (".zip" : String).data) := by
    rw [backupName, stringDataAppend, stringDataAppend, List.append_assoc]
  rw [isBackupFile, strStarts, strEnds, hdata, Bool.and_eq_true]
  constructor
  · exact charsPrefix_append_self _ _
  · rw [← List.append_assoc, List.reverse_append]
    exact charsPrefix_append_self _ _

/-- C3 (counterexample): with four archives BK_20250101..BK_20250104 already
present, the fifth CreateBackup deletes the two surplus archives in the
order [BK_20250102, BK_20250101] — the newer of the two first; the claim's
oldest-first deletion would remove BK_20250101 first.  The final contents
are nevertheless the three newest archives. -/
theorem createBackup_deletion_order_not_oldest_first :
    (createBackup cBackupDir cTs).2 =
        [backupName ("20250102_010101"), backupName ("20250101_010101")]
      ∧ strBefore (backupName ("20250101_010101"))
          (backupName ("20250102_010101")) = true := by decide

/-- C3 (amended): after every completed createBackup the backup directory
holds at most 3 archives matching the naming convention, and they are
exactly the first three of the descending name sort of all archives present
after creation — the 3 most recent; when the new timestamp sorts after all
existing archive names, the archive just created is among those kept, and
with at least 3 archives present exactly 3 remain (so 4 existing plus a new
one prune to 3).  The surplus archives are deleted in descending name order
(newest of the surplus first), not oldest-first, and files not matching the
convention are untouched. -/
theorem createBackup_retention_amended (dir : List String) (ts : String)
    (h1 : dir.Nodup)
    (h2 : ∀ b ∈ dir, isBackupFile b = true → strBefore b (backupName ts) = true) :
    ((createBackup dir ts).1.filter isBackupFile).length ≤ 3
      ∧ (∀ b, b ∈ (createBackup dir ts).1.filter isBackupFile ↔
          b ∈ (sortDesc ((dirAfterCreate dir ts).filter isBackupFile)).take 3)
      ∧ backupName ts ∈ (createBackup dir ts).1
      ∧ (3 ≤ ((dirAfterCreate dir ts).filter isBackupFile).length →
          ((createBackup dir ts).1.filter isBackupFile).length = 3)
      ∧ (createBackup dir ts).2
          = (sortDesc ((dirAfterCreate dir ts).filter isBackupFile)).drop 3
      ∧ List.Pairwise sortsGE ((createBackup dir ts).2)
      ∧ (∀ b ∈ dir, isBackupFile b = false → b ∈ (createBackup dir ts).1) := by
  have hres1 : (createBackup dir ts).1
      = (dirAfterCreate dir ts).filter
          (fun n => decide (n ∉ (sortDesc ((dirAfterCreate dir ts).filter isBackupFile)).drop 3)) := rfl
  have hres2 : (createBackup dir ts).2
      = (sortDesc ((dirAfterCreate dir ts).filter isBackupFile)).drop 3 := rfl
  have hname_bk : isBackupFile (backupName ts) = true := isBackupFile_backupName ts
  have hd_nodup : (dirAfterCreate dir ts).Nodup := by
    rw [dirAfterCreate]
    by_cases hmem : backupName ts ∈ dir
    · simpa [hmem] using h1
    · simp only [hmem, if_false]
      rw [List.nodup_append]
      refine ⟨h1, List.nodup_singleton _, ?_⟩
      intro a ha hb
      rw [List.mem_singleton] at hb
      subst hb
      exact hmem ha
  have hbks_nodup : ((dirAfterCreate dir ts).filter isBackupFile).Nodup :=
    hd_nodup.filter _
  have hsorted_nodup :
      (sortDesc ((dirAfterCreate dir ts).filter isBackupFile)).Nodup :=
    (sortDesc_perm _).nodup_iff.mpr hbks_nodup
  have hsorted_pairwise := sortDesc_sorted ((dirAfterCreate dir ts).filter isBackupFile)
  have hsplit := List.take_append_drop 3 (sortDesc ((dirAfterCreate dir ts).filter isBackupFile))
  have hdisj : ∀ b ∈ (sortDesc ((dirAfterCreate dir ts).filter isBackupFile)).take 3,
      b ∉ (sortDesc ((dirAfterCreate dir ts).filter isBackupFile)).drop 3 := by
    have hn := hsorted_nodup
    rw [← hsplit, List.nodup_append] at hn
    exact fun b hb => hn.2.2 hb
  have hname_mem : backupName ts ∈ dirAfterCreate dir ts := by
    rw [dirAfterCreate]
    by_cases hmem : backupName ts ∈ dir
    · simp [hmem]
    · simp [hmem]
  have hmem_d_of_dir : ∀ b ∈ dir, b ∈ dirAfterCreate dir ts := by
    intro b hb
    rw [dirAfterCreate]
    by_cases hmem : backupName ts ∈ dir
    · simpa [hmem] using hb
    · simp [hmem, hb]
  have hd_sub : ∀ b ∈ dirAfterCreate dir ts, b = backupName ts ∨ b ∈ dir := by
    intro b hb
    rw [dirAfterCreate] at hb
    by_cases hmem : backupName ts ∈ dir
    · simp only [hmem, if_true] at hb
      exact Or.inr hb
    · simp only [hmem, if_false, List.mem_append, List.mem_singleton] at hb
      rcases hb with hb | hb
      · exact Or.inr hb
      · exact Or.inl hb
  have hmemX : ∀ b, b ∈ (createBackup dir ts).1.filter isBackupFile ↔
      b ∈ (sortDesc ((dirAfterCreate dir ts).filter isBackupFile)).take 3 := by
    intro b
    rw [hres1]
    constructor
    · intro hb
      have hb1 := List.mem_filter.mp hb
      have hb2 := List.mem_filter.mp hb1.1
      have hbndel : b ∉ (sortDesc ((dirAfterCreate dir ts).filter isBackupFile)).drop 3 := by
        have := hb2.2
        rwa [decide_eq_true_eq] at this
      have hbbks : b ∈ (dirAfterCreate dir ts).filter isBackupFile :=
        List.mem_filter.mpr ⟨hb2.1, hb1.2⟩
      have hbsorted := mem_sortDesc.mpr hbbks
      rw [← hsplit, List.mem_append] at hbsorted
      rcases hbsorted with hks | hks
      · exact hks
      · exact absurd hks hbndel
    · intro hbkeep
      have hbsorted : b ∈ sortDesc ((dirAfterCreate dir ts).filter isBackupFile) :=
        List.take_subset _ _ hbkeep
      have hbbks := mem_sortDesc.mp hbsorted
      have hb2 := List.mem_filter.mp hbbks
      refine List.mem_filter.mpr ⟨List.mem_filter.mpr ⟨hb2.1, ?_⟩, hb2.2⟩
      rw [decide_eq_true_eq]
      exact hdisj b hbkeep
  have hX_nodup : ((createBackup dir ts).1.filter isBackupFile).Nodup := by
    rw [hres1]
    exact (hd_nodup.filter _).filter _
  have hkeep_nodup :
      ((sortDesc ((dirAfterCreate dir ts).filter isBackupFile)).take 3).Nodup :=
    List.Nodup.sublist (List.take_sublist _ _) hsorted_nodup
  have hsubcard : ((createBackup dir ts).1.filter isBackupFile).length ≤ 3 := by
    calc ((createBackup dir ts).1.filter isBackupFile).length
        = ((createBackup dir ts).1.filter isBackupFile).toFinset.card :=
          (List.toFinset_card_of_nodup hX_nodup).symm
      _ ≤ ((sortDesc ((dirAfterCreate dir ts).filter isBackupFile)).take 3).toFinset.card := by
          apply Finset.card_le_card
          intro a ha
          rw [List.mem_toFinset] at ha ⊢
          exact (hmemX a).mp ha
      _ ≤ ((sortDesc ((dirAfterCreate dir ts).filter isBackupFile)).take 3).length :=
          List.toFinset_card_le _
      _ ≤ 3 := List.length_take_le _ _
  refine ⟨hsubcard, hmemX, ?_, ?_, hres2, ?_, ?_⟩
  · rw [hres1, List.mem_filter]
    refine ⟨hname_mem, ?_⟩
    rw [decide_eq_true_eq]
    intro hdel
    have hname_bks : backupName ts ∈ (dirAfterCreate dir ts).filter isBackupFile :=
      List.mem_filter.mpr ⟨hname_mem, hname_bk⟩
    have hname_sorted := mem_sortDesc.mpr hname_bks
    cases hsort_eq : sortDesc ((dirAfterCreate dir ts).filter isBackupFile) with
    | nil =>
      rw [hsort_eq] at hname_sorted
      simp at hname_sorted
    | cons hd0 tl =>
      rw [hsort_eq] at hdel
      have hdel' : backupName ts ∈ tl := by
        have : (hd0 :: tl).drop 3 = tl.drop 2 := rfl
        rw [this] at hdel
        exact List.drop_subset _ _ hdel
      have hpw := hsorted_pairwise
      rw [hsort_eq] at hpw
      have hge : charsLe (backupName ts).data hd0.data = true :=
        (List.pairwise_cons.mp hpw).1 _ hdel'
      have hhd_mem : hd0 ∈ sortDesc ((dirAfterCreate dir ts).filter isBackupFile) := by
        rw [hsort_eq]
        exact List.mem_cons_self _ _
      have hhd2 := List.mem_filter.mp (mem_sortDesc.mp hhd_mem)
      by_cases heq : hd0 = backupName ts
      · have hn := hsorted_nodup
        rw [hsort_eq, List.nodup_cons] at hn
        rw [heq] at hn
        exact hn.1 hdel'
      · rcases hd_sub hd0 hhd2.1 with h | h
        · exact heq h
        · exact charsLt_not_ge (h2 hd0 h hhd2.2) hge
  · intro h3
    have hslen : (sortDesc ((dirAfterCreate dir ts).filter isBackupFile)).length
        = ((dirAfterCreate dir ts).filter isBackupFile).length :=
      (sortDesc_perm _).length_eq
    have hkeep_len :
        ((sortDesc ((dirAfterCreate dir ts).filter isBackupFile)).take 3).length = 3 := by
      rw [List.length_take]
      omega
    have hfs : ((createBackup dir ts).1.filter isBackupFile).toFinset
        = ((sortDesc ((dirAfterCreate dir ts).filter isBackupFile)).take 3).toFinset := by
      apply Finset.ext
      intro a
      rw [List.mem_toFinset, List.mem_toFinset]
      exact hmemX a
    calc ((createBackup dir ts).1.filter isBackupFile).length
        = ((createBackup dir ts).1.filter isBackupFile).toFinset.card :=
          (List.toFinset_card_of_nodup hX_nodup).symm
      _ = ((sortDesc ((dirAfterCreate dir ts).filter isBackupFile)).take 3).toFinset.card := by
          rw [hfs]
      _ = ((sortDesc ((dirAfterCreate dir ts).filter isBackupFile)).take 3).length :=
          List.toFinset_card_of_nodup hkeep_nodup
      _ = 3 := hkeep_len
  · rw [hres2]
    exact List.Pairwise.sublist (List.drop_sublist _ _) hsorted_pairwise
  · intro b hb hnbk
    rw [hres1, List.mem_filter]
    refine ⟨hmem_d_of_dir b hb, ?_⟩
    rw [decide_eq_true_eq]
    intro hdel
    have hbsorted : b ∈ sortDesc ((dirAfterCreate dir ts).filter isBackupFile) :=
      List.drop_subset _ _ hdel
    have hb2 := List.mem_filter.mp (mem_sortDesc.mp hbsorted)
    rw [hnbk] at hb2
    exact Bool.false_ne_true hb2.2

/-- Witness for the amended C3: four archives and one unrelated file, a
fifth backup with a later timestamp. -/
theorem createBackup_retention_amended_witness :
    ((createBackup cBackupDir cTs).1.filter isBackupFile).length ≤ 3
      ∧ (∀ b, b ∈ (createBackup cBackupDir cTs).1.filter isBackupFile ↔
          b ∈ (sortDesc ((dirAfterCreate cBackupDir cTs).filter isBackupFile)).take 3)
      ∧ backupName cTs ∈ (createBackup cBackupDir cTs).1
      ∧ (3 ≤ ((dirAfterCreate cBackupDir cTs).filter isBackupFile).length →
          ((createBackup cBackupDir cTs).1.filter isBackupFile).length = 3)
      ∧ (createBackup cBackupDir cTs).2
          = (sortDesc ((dirAfterCreate cBackupDir cTs).filter isBackupFile)).drop 3
      ∧ List.Pairwise sortsGE ((createBackup cBackupDir cTs).2)
      ∧ (∀ b ∈ cBackupDir, isBackupFile b = false → b ∈ (createBackup cBackupDir cTs).1) :=
  createBackup_retention_amended cBackupDir cTs (by decide) (by decide)

/- Helper lemmas about the target tree and the restore loop. -/

/-- Writing a file binds its path and leaves every other path unchanged. -/
theorem lookupTree_writeFile :
    ∀ (t : FsTree) (q : String) (d : FileData) (p : String),
      lookupTree (writeFile t q d) p = if p = q then some d else lookupTree t p := by
  intro t
  induction t with
  | nil =>
    intro q d p
    by_cases h : p = q
    · subst h
      simp [writeFile, lookupTree]
    · have hqp : ¬ (q = p) := fun hh => h hh.symm
      simp [writeFile, lookupTree, h, hqp]
  | cons e rest ih =>
    intro q d p
    by_cases he : e.1 = q
    · by_cases hp : p = q
      · subst hp
        simp [writeFile, lookupTree, he]
      · have hqp : ¬ (q = p) := fun hh => hp hh.symm
        have hep : ¬ (e.1 = p) := by rw [he]; exact hqp
        simp [writeFile, lookupTree, he, hp, hqp, hep]
    · by_cases hep : e.1 = p
      · have hp : ¬ (p = q) := fun hh => he (hep.trans hh)
        simp [writeFile, lookupTree, he, hep, hp]
      · simp [writeFile, lookupTree, he, hep, ih q d p]

/-- With the open, read and write oracles all succeeding, the extraction
loop overlays the archive entries on the tree: the last entry bound to a
path wins, and paths not in the archive keep their previous content. -/
theorem restore_target_lookup (total : Nat) :
    ∀ (entries : List (Nat × String × FileData)) (t : FsTree) (p : String),
      lookupTree ((restoreEntries (fun _ => true) (fun _ => true) (fun _ => true)
          total entries t).target) p
        = match lookupLast entries p with
          | some d => some d
          | none => lookupTree t p := by
  intro entries
  induction entries with
  | nil => intro t p; rfl
  | cons e rest ih =>
    intro t p
    obtain ⟨i, q, d⟩ := e
    rw [restoreEntries]
    simp only [if_true]
    rw [ih (writeFile t q d) p]
    simp only [lookupLast]
    cases hl : lookupLast rest p with
    | some d2 => rfl
    | none =>
      rw [lookupTree_writeFile t q d p]
      by_cases hq : q = p
      · subst hq
        simp
      · have hpq : ¬ (p = q) := fun hh => hq hh.symm
        simp [hq, hpq]

/-- A path absent from the tree has no content. -/
theorem lookupTree_eq_none_of_not_mem :
    ∀ (t : FsTree) (p : String), p ∉ t.map Prod.fst → lookupTree t p = none := by
  intro t
  induction t with
  | nil => intro p _; rfl
  | cons e rest ih =>
    intro p h
    rw [List.map_cons, List.mem_cons] at h
    push_neg at h
    have hne : ¬ (e.1 = p) := fun hh => h.1 hh.symm
    simp [lookupTree, hne, ih p h.2]

/-- Against an archive enumerated from a tree with no duplicate paths, the
last binding of a path is its tree content. -/
theorem lookupLast_enumFrom :
    ∀ (S : FsTree) (k : Nat) (p : String), (S.map Prod.fst).Nodup →
      lookupLast (List.enumFrom k S) p = lookupTree S p := by
  intro S
  induction S with
  | nil => intro k p _; rfl
  | cons e rest ih =>
    intro k p hnod
    obtain ⟨q, d⟩ := e
    rw [List.map_cons, List.nodup_cons] at hnod
    have hrec := ih (k + 1) p hnod.2
    have henum : List.enumFrom k ((q, d) :: rest)
        = (k, q, d) :: List.enumFrom (k + 1) rest := rfl
    rw [henum, lookupLast, hrec]
    by_cases hq : q = p
    · subst hq
      have hnone : lookupTree rest q = none :=
        lookupTree_eq_none_of_not_mem rest q hnod.1
      rw [hnone]
      simp [lookupTree]
    · cases hr : lookupTree rest p with
      | some d2 => simp [lookupTree, hr, hq]
      | none => simp [lookupTree, hr, hq]

/-- With every file readable at backup time, the archive stores the tree. -/
theorem zipArchive_all_readable (t : FsTree) : zipArchive (fun _ => true) t = t := by
  rw [zipArchive]
  simp

/-- C4 (counterexample): apply the spec's own scenario (sub/b.txt missing)
to reach the post-Apply state S = cApplied, back it up with every file
readable, mutate the target by adding extra.txt, and restore with every
step succeeding: the extra file survives restoration, so the restored file
set does not equal S — doRestore only overwrites archive entries and never
deletes files the archive lacks. -/
theorem restore_roundtrip_extra_file_survives :
    cApplied = [("a.txt", [49]), ("sub/b.txt", [50, 50])]
      ∧ lookupTree cRestored ("extra.txt") = some [9]
      ∧ lookupTree cApplied ("extra.txt") = none
      ∧ lookupTree cRestored ("a.txt") = some [49]
      ∧ lookupTree cRestored ("sub/b.txt") = some [50, 50] := by decide

/-- C4 (amended): with the backup reads and every restore step succeeding,
restoring the backup of S over an arbitrarily mutated tree M yields the
overlay of S on M: every path of S carries its S content again, while paths
present only in M keep their mutated content — so the restored tree equals S
exactly if and only if the mutation introduced no paths outside S, which the
second part states: when every path of M is a path of S, the round trip
reproduces S on every path. -/
theorem restore_overlay_amended (S M : FsTree) (p : String)
    (hS : (S.map Prod.fst).Nodup) :
    lookupTree ((doRestore (fun _ => true) (fun _ => true) (fun _ => true)
          (zipArchive (fun _ => true) S) M).target) p
        = (if (lookupTree S p).isSome then lookupTree S p else lookupTree M p)
      ∧ ((∀ q, (lookupTree M q).isSome = true → (lookupTree S q).isSome = true) →
          ∀ q, lookupTree ((doRestore (fun _ => true) (fun _ => true) (fun _ => true)
              (zipArchive (fun _ => true) S) M).target) q = lookupTree S q) := by
  have hkey : ∀ r, lookupTree ((doRestore (fun _ => true) (fun _ => true) (fun _ => true)
      (zipArchive (fun _ => true) S) M).target) r
        = match lookupTree S r with
          | some d => some d
          | none => lookupTree M r := by
    intro r
    rw [doRestore, zipArchive_all_readable]
    rw [restore_target_lookup S.length (List.enum S) M r]
    have : lookupLast (List.enum S) r = lookupTree S r := lookupLast_enumFrom S 0 r hS
    rw [this]
  constructor
  · rw [hkey p]
    cases lookupTree S p with
    | some d => rfl
    | none => rfl
  · intro hsub q
    rw [hkey q]
    cases hq : lookupTree S q with
    | some d => rfl
    | none =>
      cases hm : lookupTree M q with
      | none => rfl
      | some v =>
        have := hsub q (by rw [hm]; rfl)
        rw [hq] at this
        simp at this

/-- Witness for the amended C4 at a concrete pair of trees. -/
theorem restore_overlay_amended_witness :
    lookupTree ((doRestore (fun _ => true) (fun _ => true) (fun _ => true)
          (zipArchive (fun _ => true) cApplied) cMut).target) ("extra.txt")
        = (if (lookupTree cApplied ("extra.txt")).isSome
            then lookupTree cApplied ("extra.txt") else lookupTree cMut ("extra.txt"))
      ∧ ((∀ q, (lookupTree cMut q).isSome = true →
            (lookupTree cApplied q).isSome = true) →
          ∀ q, lookupTree ((doRestore (fun _ => true) (fun _ => true) (fun _ => true)
              (zipArchive (fun _ => true) cApplied) cMut).target) q
            = lookupTree cApplied q) :=
  restore_overlay_amended cApplied cMut ("extra.txt") (by decide)
